import Mathlib

/-!
Verification of the augustus-i18n font-asset generator (`main.py`).

The development shallowly embeds the script's core algorithms:

* `get_bit_code`           — the Pixel Quantizer (main.py lines 40-57);
* `pack_pixels_to_bytes`   — the Row Bit-Packer (main.py lines 114-152),
  with the inner per-pixel loop body as `packStep` and the per-row loop
  body as `packRowStep`;
* `advanceId`, `processChar`, `buildState` — the Character Code Allocator
  and corpus scan of Step 2 (main.py lines 232-284);
* `utf8Encode`, `padded_bytes`, `formatEntry` — the Codepage Table Builder
  (main.py lines 253-257 and 272-275); `pyHex` reproduces Python's
  `format(n, "0<w>x")` directive (lower-case hex, zero-padded to a
  minimum width, more digits when the value needs them);
* `sizeStream`, `binaryPayload` — the Glyph Stream Assembler of Step 3
  (main.py lines 359-383), with the external rasterizer abstracted as a
  function returning `Option (List Nat)` exactly where
  `render_character` returns pixel data or `None`;
* `mergeTranslation`, `runGeneration` — the Step 1/1.5 input handling
  (main.py lines 190-230): the base text file is required, the
  translation file is merged when readable.

Machine integers are modelled as `Nat`; Python integers are unbounded, so
no wrap-around is introduced.  Python's `next_id & 0xFF` is the low byte,
written `next_id % 0x100`, and `next_id & 0xFF00` is written
`next_id / 0x100 % 0x100 * 0x100`; for non-negative integers these agree
with the bitwise masks.
-/

/-- Quantizer from main.py lines 40-57: compress a grayscale sample
(0 = black, 255 = white) into `bits_per_char` bits, darker samples
getting larger codes.  `>>> ` is Python's `>>`. -/
def get_bit_code (pixel_value bits_per_char : Nat) : Nat :=
  if bits_per_char = 1 then
    if pixel_value < 128 then 1 else 0
  else if bits_per_char = 2 then
    3 - (pixel_value >>> 6)
  else if bits_per_char = 4 then
    (255 - pixel_value) >>> 4
  else 0

/-- Body of the inner `for x in range(size)` loop of
`pack_pixels_to_bytes` (main.py lines 130-145).  The state is
`(current_byte, bits_in_current_byte, packed_bytes)`.  Python's
`pixels[pixel_index]` is modelled with `getD _ 0`; the claims only use
rasters holding all `size * size` samples, where the two agree. -/
def packStep (pixels : List Nat) (bits_per_char size y : Nat)
    (st : Nat × Nat × List Nat) (x : Nat) : Nat × Nat × List Nat :=
  let pixel_value := pixels.getD (y * size + x) 0
  let code := get_bit_code pixel_value bits_per_char
  let current_byte := st.1 ||| (code <<< st.2.1)
  let bits_in_current_byte := st.2.1 + bits_per_char
  if 8 ≤ bits_in_current_byte then
    (0, 0, st.2.2 ++ [current_byte])
  else
    (current_byte, bits_in_current_byte, st.2.2)

/-- Body of the outer `for y in range(size)` loop of
`pack_pixels_to_bytes` (main.py lines 126-150): run the row with a fresh
accumulator, then flush the partial byte if `bits_in_current_byte > 0`. -/
def packRowStep (pixels : List Nat) (bits_per_char size : Nat)
    (packed_bytes : List Nat) (y : Nat) : List Nat :=
  let st := (List.range size).foldl (packStep pixels bits_per_char size y)
    (0, 0, packed_bytes)
  if 0 < st.2.1 then st.2.2 ++ [st.1] else st.2.2

/-- Packer from main.py lines 114-152: pack the flat `size * size` pixel
list row by row into bytes. -/
def pack_pixels_to_bytes (pixels : List Nat) (bits_per_char size : Nat) : List Nat :=
  (List.range size).foldl (packRowStep pixels bits_per_char size) []

/-- Packing of the single row `y` on its own (the inner loop of
`pack_pixels_to_bytes` run from an empty output buffer).  Used to state
that the packer never carries bits from one row into the next. -/
def packRow (pixels : List Nat) (bits_per_char size y : Nat) : List Nat :=
  packRowStep pixels bits_per_char size [] y

/-- Identifier advance of the Character Code Allocator, the duplicated
increment code of main.py lines 260-265 and 278-283: if the low byte is
0xFF, carry into the second byte and reset the low byte to 0x80;
otherwise add one (and, should the low byte have become 0x00, jump to
0x80 — dead code while the low byte stays at or above 0x80). -/
def advanceId (next_id : Nat) : Nat :=
  if next_id % 0x100 = 0xFF then
    next_id / 0x100 % 0x100 * 0x100 + 0x100 + 0x80
  else
    let n := next_id + 1
    if n % 0x100 = 0 then n + 0x80 else n

/-- Identifier emitted for the k-th Admitted Character: the allocator
counter starts at 0x8080 (main.py line 240) and advances once per
admission. -/
def idAt : Nat → Nat
  | 0 => 0x8080
  | k + 1 => advanceId (idAt k)

/-- State of the Step-2 corpus scan (main.py lines 232-242):
`chars_to_process` is the Glyph Order being built, `unique_chars_seen`
the dedup set (a list queried by membership), `next_id` the allocator
counter and `char_map_data` the emitted Codepage Entries.  Python stores
each entry as its final formatted string; since the formatting is pure,
the entry is kept here as the `(identifier, character)` pair and
`charMapData` applies the format separately. -/
structure GenState where
  chars_to_process : List Char
  unique_chars_seen : List Char
  next_id : Nat
  char_map_data : List (Nat × Char)

/-- Loop body of `for char in content` (main.py lines 244-284): drop
newlines and carriage returns; always admit the ideographic space with a
fresh identifier; admit any other character only on first sight. -/
def processChar (st : GenState) (c : Char) : GenState :=
  if c = '\n' ∨ c = '\r' then st
  else if c = '　' then
    { chars_to_process := st.chars_to_process ++ [c]
      unique_chars_seen := st.unique_chars_seen
      next_id := advanceId st.next_id
      char_map_data := st.char_map_data ++ [(st.next_id, c)] }
  else if c ∈ st.unique_chars_seen then st
  else
    { chars_to_process := st.chars_to_process ++ [c]
      unique_chars_seen := st.unique_chars_seen ++ [c]
      next_id := advanceId st.next_id
      char_map_data := st.char_map_data ++ [(st.next_id, c)] }

/-- Initial scan state (main.py lines 233-242). -/
def initState : GenState :=
  { chars_to_process := []
    unique_chars_seen := []
    next_id := 0x8080
    char_map_data := [] }

/-- Run the Step-2 scan over a corpus. -/
def buildState (corpus : List Char) : GenState :=
  corpus.foldl processChar initState

/-- Glyph Order: the `chars_to_process` list after the scan. -/
def glyphOrder (corpus : List Char) : List Char :=
  (buildState corpus).chars_to_process

/-- Codepage Entries (identifier, character) in emission order. -/
def charEntries (corpus : List Char) : List (Nat × Char) :=
  (buildState corpus).char_map_data

/-- The identifiers emitted by the allocator, in order. -/
def emittedIds (corpus : List Char) : List Nat :=
  (charEntries corpus).map Prod.fst

/-- UTF-8 encoding of one code point, as Python's `char.encode('utf-8')`
produces it (a `Char` is one Unicode scalar value). -/
def utf8Encode (c : Char) : List Nat :=
  let n := c.toNat
  if n < 0x80 then [n]
  else if n < 0x800 then
    [0xC0 + n / 0x40, 0x80 + n % 0x40]
  else if n < 0x10000 then
    [0xE0 + n / 0x1000, 0x80 + n / 0x40 % 0x40, 0x80 + n % 0x40]
  else
    [0xF0 + n / 0x40000, 0x80 + n / 0x1000 % 0x40, 0x80 + n / 0x40 % 0x40,
      0x80 + n % 0x40]

/-- Payload of a Codepage Entry, from main.py line 255:
`list(utf8_bytes[:3]) + [0x00] * (3 - len(utf8_bytes))`. -/
def padded_bytes (c : Char) : List Nat :=
  (utf8Encode c).take 3 ++ List.replicate (3 - (utf8Encode c).length) 0x00

/-- Lower-case hexadecimal digit, as Python's `x` format directive. -/
def hexDigitChar (n : Nat) : Char :=
  if n < 10 then Char.ofNat (0x30 + n) else Char.ofNat (0x57 + n)

/-- Minimal lower-case hexadecimal digit list of `n`, most significant
digit first; the first argument is recursion fuel (any fuel above `n`
gives the true digits). -/
def hexDigitsAux : Nat → Nat → List Char
  | 0, _ => []
  | fuel + 1, n =>
    if n < 16 then [hexDigitChar n]
    else hexDigitsAux fuel (n / 16) ++ [hexDigitChar (n % 16)]

/-- Python's `format(n, "0<width>x")`: minimal lower-case hex digits,
zero-padded on the left to at least `width` digits (values too large for
`width` digits keep all their digits). -/
def pyHex (width n : Nat) : String :=
  let ds := hexDigitsAux (n + 1) n
  String.mk (List.replicate (width - ds.length) '0' ++ ds)

/-- Formatted Codepage Entry from main.py lines 257 and 275, the f-string
`"\x7b\x7b0x\x7bnext_id:04x\x7d, ..."` producing
`\x7b0xIIII, \x7b0xBB, 0xBB, 0xBB\x7d\x7d`. -/
def formatEntry (next_id : Nat) (c : Char) : String :=
  let b := padded_bytes c
  "\x7b0x" ++ pyHex 4 next_id ++ ", \x7b0x" ++ pyHex 2 (b.getD 0 0) ++
    ", 0x" ++ pyHex 2 (b.getD 1 0) ++ ", 0x" ++ pyHex 2 (b.getD 2 0) ++ "\x7d\x7d"

/-- Formatted character-map lines produced by the Step-2 scan
(main.py `char_map_data`). -/
def charMapData (corpus : List Char) : List String :=
  (charEntries corpus).map (fun p => formatEntry p.1 p.2)

/-- Codepage Entry shape required by the spec (section 6): the literal
structure `\x7b identifier, \x7b byte0, byte1, byte2 \x7d \x7d` with the
identifier as exactly 4 hex digits and each byte as exactly 2 hex
digits.  Written from the spec's words, to be compared with
`formatEntry`. -/
def entrySpec (id b0 b1 b2 : Nat) : String :=
  "\x7b0x" ++
    String.mk [hexDigitChar (id / 0x1000 % 16), hexDigitChar (id / 0x100 % 16),
      hexDigitChar (id / 16 % 16), hexDigitChar (id % 16)] ++
  ", \x7b0x" ++
    String.mk [hexDigitChar (b0 / 16 % 16), hexDigitChar (b0 % 16)] ++
  ", 0x" ++
    String.mk [hexDigitChar (b1 / 16 % 16), hexDigitChar (b1 % 16)] ++
  ", 0x" ++
    String.mk [hexDigitChar (b2 / 16 % 16), hexDigitChar (b2 % 16)] ++
  "\x7d\x7d"

/-- Size Descriptor, one element of `FONT_DEFINITIONS` (main.py
lines 28-32). -/
structure FontDef where
  render_font_size : Nat
  size : Nat

/-- Configured Size Descriptors (main.py lines 28-32). -/
def FONT_DEFINITIONS : List FontDef :=
  [{ render_font_size := 12, size := 12 },
   { render_font_size := 15, size := 15 },
   { render_font_size := 20, size := 20 }]

/-- Per-size glyph stream of Step 3 (main.py lines 363-380): iterate the
Glyph Order, skip characters whose rasterization failed
(`render_character` returned `None`), and append each packed glyph to
`all_packed_data`.  The external rasterizer is the `render`
parameter. -/
def sizeStream (render : Char → FontDef → Option (List Nat))
    (chars_to_process : List Char) (bits_per_char : Nat) (font_def : FontDef) :
    List Nat :=
  chars_to_process.foldl
    (fun all_packed_data char =>
      match render char font_def with
      | none => all_packed_data
      | some pixels =>
        all_packed_data ++ pack_pixels_to_bytes pixels bits_per_char font_def.size)
    []

/-- Binary Payload of Step 3 (main.py lines 359-383): the output file is
the concatenation, size-major in configured order, of the per-size glyph
streams. -/
def binaryPayload (render : Char → FontDef → Option (List Nat))
    (chars_to_process : List Char) (bits_per_char : Nat) : List Nat :=
  FONT_DEFINITIONS.foldl
    (fun out_f font_def => out_f ++ sizeStream render chars_to_process bits_per_char font_def)
    []

/-- Character class of `CHINESE_PATTERN` (main.py line 23): CJK unified
ideographs, CJK punctuation, and full-width forms. -/
def isChineseChar (c : Char) : Bool :=
  (0x4e00 ≤ c.toNat && c.toNat ≤ 0x9fff) ||
  (0x3000 ≤ c.toNat && c.toNat ≤ 0x303f) ||
  (0xff00 ≤ c.toNat && c.toNat ≤ 0xffef)

/-- Step 1.5 merge (main.py lines 210-226): collect the pattern's
matches from the translation file, drop those already present in the
base text, and append the remainder sorted by code point (Python's
`sorted` over the set). -/
def mergeTranslation (content : String) (translation_content : String) : String :=
  let chinese_chars := (translation_content.toList.filter isChineseChar).eraseDups
  let new_chars := chinese_chars.filter (fun c => c ∉ content.toList)
  content ++ String.mk (new_chars.mergeSort (fun a b => a ≤ b))

/-- Input handling of Steps 1, 1.5 and 2 (main.py lines 190-284).
`none` for a file models a missing or unreadable file.  The result is
`none` when the run aborts before producing any output (the `return`
statements of lines 198 and 201), and otherwise holds the codepage table
patch data and the Glyph Order from which the Binary Payload is built.
A missing translation file only prints a warning (line 228) and the run
continues with the base text alone. -/
def runGeneration (base_text translation_text : Option String) :
    Option (List String × List Char) :=
  match base_text with
  | none => none
  | some content =>
    let content :=
      match translation_text with
      | none => content
      | some t => mergeTranslation content t
    some (charMapData content.toList, glyphOrder content.toList)

/-- Invariant of the Step-2 scan: entries pair off with the Glyph Order,
identifiers follow the `idAt` sequence, newlines never enter the state,
and every non-exempt character occurs in the Glyph Order exactly once if
it has been seen and never otherwise. -/
def ScanInv (st : GenState) : Prop :=
  st.char_map_data.map Prod.snd = st.chars_to_process ∧
  st.char_map_data.map Prod.fst = (List.range st.char_map_data.length).map idAt ∧
  st.next_id = idAt st.char_map_data.length ∧
  ('\n' ∉ st.chars_to_process ∧ '\r' ∉ st.chars_to_process) ∧
  ('\n' ∉ st.unique_chars_seen ∧ '\r' ∉ st.unique_chars_seen) ∧
  ∀ c : Char, c ≠ '　' →
    st.chars_to_process.count c = if c ∈ st.unique_chars_seen then 1 else 0

/-! ### Allocator arithmetic -/

/-- Carry step of the allocator: with low byte 0xFF, the counter moves to
(high byte + 1) · 0x100 + 0x80. -/
lemma advanceId_carry (n : Nat) (h : n % 0x100 = 0xFF) :
    advanceId n = (n / 0x100 % 0x100 + 1) * 0x100 + 0x80 := by
  simp only [advanceId, if_pos h]
  ring

/-- Increment step of the allocator: with low byte in [0x80, 0xFE] the
counter just moves up by one. -/
lemma advanceId_incr (n : Nat) (h : n % 0x100 ≠ 0xFF) (h2 : 0x80 ≤ n % 0x100) :
    advanceId n = n + 1 := by
  simp only [advanceId, if_neg h]
  rw [if_neg (by omega)]

/-- Every counter value reached from 0x8080 has low byte at least 0x80. -/
lemma idAt_lowByte : ∀ k, 0x80 ≤ idAt k % 0x100 := by
  intro k
  induction k with
  | zero => decide
  | succ k ih =>
    show 0x80 ≤ advanceId (idAt k) % 0x100
    by_cases h : idAt k % 0x100 = 0xFF
    · rw [advanceId_carry _ h]
      omega
    · rw [advanceId_incr _ h ih]
      omega

/-- Closed form of the counter sequence up to the first wrap-around:
the first 16384 identifiers fill the blocks 0x8080-0x80FF … 0xFF80-0xFFFF,
and the next 128 fill 0x10080-0x100FF. -/
lemma idAt_closed : ∀ k, k ≤ 16511 →
    idAt k = if k < 16384 then 0x8080 + k / 128 * 0x100 + k % 128
             else 0x10080 + (k - 16384) := by
  intro k
  induction k with
  | zero => intro _; decide
  | succ k ih =>
    intro hk
    have hc := ih (by omega)
    show advanceId (idAt k) = _
    rw [hc]
    by_cases h1 : k < 16384
    · rw [if_pos h1]
      by_cases h2 : k % 128 = 127
      · rw [advanceId_carry _ (by omega)]
        split <;> omega
      · rw [advanceId_incr _ (by omega) (by omega)]
        split <;> omega
    · rw [if_neg h1]
      rw [advanceId_incr _ (by omega) (by omega)]
      split <;> omega

/-- The counter is strictly increasing across the first 16512 emitted
identifiers. -/
lemma idAt_strictMono_prefix (k : Nat) (hk : k + 1 ≤ 16511) :
    idAt k < idAt (k + 1) := by
  have h1 := idAt_closed k (by omega)
  have h2 := idAt_closed (k + 1) hk
  rw [h1, h2]
  split <;> split <;> omega

/-- At step 16511 the counter is 0x100FF. -/
lemma idAt_16511 : idAt 16511 = 0x100FF := by
  rw [idAt_closed 16511 (by omega)]
  norm_num

/-- The wrap-around: Python's `next_id & 0xFF00` drops every bit above
the second byte, so the carry out of 0x100FF lands at 0x180. -/
lemma idAt_16512 : idAt 16512 = 0x180 := by
  show advanceId (idAt 16511) = 0x180
  rw [idAt_16511]
  decide

/-- At step 16384 the counter has already left the 16-bit range. -/
lemma idAt_16384 : idAt 16384 = 0x10080 := by
  rw [idAt_closed 16384 (by omega)]
  norm_num

/-! ### The corpus-scan invariant -/

lemma scanInv_init : ScanInv initState := by
  refine ⟨rfl, rfl, rfl, by simp [initState], by simp [initState], ?_⟩
  intro c _
  simp [initState]

lemma scanInv_step (st : GenState) (c : Char) (h : ScanInv st) :
    ScanInv (processChar st c) := by
  obtain ⟨h1, h2, h3, ⟨hn1, hn2⟩, ⟨hs1, hs2⟩, hcount⟩ := h
  unfold processChar
  by_cases hnl : c = '\n' ∨ c = '\r'
  · rw [if_pos hnl]
    exact ⟨h1, h2, h3, ⟨hn1, hn2⟩, ⟨hs1, hs2⟩, hcount⟩
  · rw [if_neg hnl]
    push_neg at hnl
    by_cases hex : c = '　'
    · rw [if_pos hex]
      refine ⟨?_, ?_, ?_, ⟨?_, ?_⟩, ⟨hs1, hs2⟩, ?_⟩
      · simp [h1]
      · simp only [List.map_append, List.length_append, List.map_cons, List.map_nil,
          List.length_cons, List.length_nil]
        rw [h2, h3, List.range_succ, List.map_append]
        simp
      · simp only [List.length_append, List.length_cons, List.length_nil]
        rw [h3]
        rfl
      · simp only [List.mem_append, List.mem_singleton]
        rintro (h | h)
        · exact hn1 h
        · exact hnl.1 h.symm
      · simp only [List.mem_append, List.mem_singleton]
        rintro (h | h)
        · exact hn2 h
        · exact hnl.2 h.symm
      · intro c' hc'
        rw [List.count_append, hcount c' hc']
        have : c ≠ c' := fun he => hc' (he ▸ hex)
        simp [List.count_singleton, this]
    · rw [if_neg hex]
      by_cases hseen : c ∈ st.unique_chars_seen
      · rw [if_pos hseen]
        exact ⟨h1, h2, h3, ⟨hn1, hn2⟩, ⟨hs1, hs2⟩, hcount⟩
      · rw [if_neg hseen]
        refine ⟨?_, ?_, ?_, ⟨?_, ?_⟩, ⟨?_, ?_⟩, ?_⟩
        · simp [h1]
        · simp only [List.map_append, List.length_append, List.map_cons, List.map_nil,
            List.length_cons, List.length_nil]
          rw [h2, h3, List.range_succ, List.map_append]
          simp
        · simp only [List.length_append, List.length_cons, List.length_nil]
          rw [h3]
          rfl
        · simp only [List.mem_append, List.mem_singleton]
          rintro (h | h)
          · exact hn1 h
          · exact hnl.1 h.symm
        · simp only [List.mem_append, List.mem_singleton]
          rintro (h | h)
          · exact hn2 h
          · exact hnl.2 h.symm
        · simp only [List.mem_append, List.mem_singleton]
          rintro (h | h)
          · exact hs1 h
          · exact hnl.1 h.symm
        · simp only [List.mem_append, List.mem_singleton]
          rintro (h | h)
          · exact hs2 h
          · exact hnl.2 h.symm
        · intro c' hc'
          rw [List.count_append, hcount c' hc']
          by_cases hcc : c' = c
          · subst hcc
            simp [hseen, List.count_singleton]
          · have : c ≠ c' := fun he => hcc he.symm
            simp [List.count_singleton, this, List.mem_append, hcc]

lemma scanInv_fold : ∀ (corpus : List Char) (st : GenState),
    ScanInv st → ScanInv (corpus.foldl processChar st) := by
  intro corpus
  induction corpus with
  | nil => intro st h; exact h
  | cons c cs ih => intro st h; exact ih _ (scanInv_step st c h)

lemma scanInv_buildState (corpus : List Char) : ScanInv (buildState corpus) :=
  scanInv_fold corpus initState scanInv_init

/-! ### Consequences of the scan invariant -/

lemma emittedIds_eq (corpus : List Char) :
    emittedIds corpus = (List.range (emittedIds corpus).length).map idAt := by
  have h := (scanInv_buildState corpus).2.1
  have hlen : (emittedIds corpus).length = (charEntries corpus).length := by
    simp [emittedIds]
  rw [hlen]
  exact h

lemma range_map_getD {α : Type} (n k : Nat) (g : Nat → α) (d : α) (hk : k < n) :
    ((List.range n).map g).getD k d = g k := by
  rw [List.getD_eq_getElem _ _ (by simpa using hk), List.getElem_map, List.getElem_range]

lemma emittedIds_getD (corpus : List Char) (k : Nat)
    (hk : k < (emittedIds corpus).length) :
    (emittedIds corpus).getD k 0 = idAt k := by
  conv_lhs => rw [emittedIds_eq corpus]
  exact range_map_getD _ k idAt 0 hk

lemma emittedIds_mem (corpus : List Char) (id : Nat) (h : id ∈ emittedIds corpus) :
    ∃ k, id = idAt k := by
  rw [emittedIds_eq corpus] at h
  obtain ⟨k, _, rfl⟩ := List.mem_map.mp h
  exact ⟨k, by simp⟩

lemma glyphOrder_eq_entries_snd (corpus : List Char) :
    (charEntries corpus).map Prod.snd = glyphOrder corpus :=
  (scanInv_buildState corpus).1

lemma glyphOrder_length_eq (corpus : List Char) :
    (glyphOrder corpus).length = (emittedIds corpus).length := by
  rw [← glyphOrder_eq_entries_snd]
  simp [emittedIds]

/-- The dedup set only grows during the scan. -/
lemma seen_mono_step (st : GenState) (c : Char) :
    st.unique_chars_seen ⊆ (processChar st c).unique_chars_seen := by
  unfold processChar
  split
  · exact fun _ h => h
  · split
    · exact fun _ h => h
    · split
      · exact fun _ h => h
      · exact fun x h => List.mem_append_left _ h

lemma seen_mono_fold : ∀ (corpus : List Char) (st : GenState),
    st.unique_chars_seen ⊆ (corpus.foldl processChar st).unique_chars_seen := by
  intro corpus
  induction corpus with
  | nil => intro st x h; exact h
  | cons c cs ih =>
    intro st x h
    exact ih (processChar st c) (seen_mono_step st c h)

/-- Every non-newline, non-exempt corpus character ends up in the dedup
set. -/
lemma mem_seen_of_mem : ∀ (corpus : List Char) (st : GenState) (c : Char),
    c ∈ corpus → c ≠ '\n' → c ≠ '\r' → c ≠ '　' →
    c ∈ (corpus.foldl processChar st).unique_chars_seen := by
  intro corpus
  induction corpus with
  | nil => intro st c hc; exact absurd hc (List.not_mem_nil c)
  | cons a cs ih =>
    intro st c hc h1 h2 h3
    rcases List.mem_cons.mp hc with rfl | hmem
    · by_cases hseen : c ∈ st.unique_chars_seen
      · exact seen_mono_fold cs _ (seen_mono_step st c hseen)
      · apply seen_mono_fold cs _
        unfold processChar
        rw [if_neg (by tauto), if_neg h3, if_neg hseen]
        exact List.mem_append_right _ (List.mem_singleton.mpr rfl)
    · exact ih (processChar st a) c hmem h1 h2 h3

/-- One scan step adds one Glyph Order slot for the ideographic space
exactly when the processed character is the ideographic space. -/
lemma count_exempt_step (st : GenState) (c : Char) :
    (processChar st c).chars_to_process.count '　' =
      st.chars_to_process.count '　' + if c = '　' then 1 else 0 := by
  unfold processChar
  by_cases hnl : c = '\n' ∨ c = '\r'
  · rw [if_pos hnl,
      if_neg (by rintro rfl; rcases hnl with h | h <;> exact absurd h (by decide))]
    omega
  · rw [if_neg hnl]
    by_cases hex : c = '　'
    · subst hex
      rw [if_pos rfl, if_pos rfl]
      simp [List.count_append]
    · rw [if_neg hex, if_neg hex]
      split
      · rfl
      · simp [List.count_append, List.count_singleton, hex]

lemma count_exempt_fold : ∀ (corpus : List Char) (st : GenState),
    (corpus.foldl processChar st).chars_to_process.count '　' =
      st.chars_to_process.count '　' + corpus.count '　' := by
  intro corpus
  induction corpus with
  | nil => intro st; simp
  | cons c cs ih =>
    intro st
    rw [List.foldl_cons, ih (processChar st c), count_exempt_step,
      List.count_cons]
    by_cases hex : c = '　'
    · simp [hex]
      omega
    · simp [hex]

/-! ### Packer lemmas -/

/-- The quantizer always fits in `bits_per_char` bits at the supported
depths, for any sample value. -/
lemma get_bit_code_lt (pixel_value bits_per_char : Nat)
    (hb : bits_per_char = 1 ∨ bits_per_char = 2 ∨ bits_per_char = 4) :
    get_bit_code pixel_value bits_per_char < 2 ^ bits_per_char := by
  rcases hb with rfl | rfl | rfl
  · unfold get_bit_code
    norm_num
    split <;> omega
  · unfold get_bit_code
    norm_num [Nat.shiftRight_eq_div_pow]
    omega
  · unfold get_bit_code
    norm_num [Nat.shiftRight_eq_div_pow]
    omega

/-- ORing a `bits_per_char`-bit code above `bits` occupied bits stays
inside `bits + bits_per_char` bits. -/
lemma lor_shift_bound (cb code bits bpc : Nat) (hcb : cb < 2 ^ bits)
    (hcode : code < 2 ^ bpc) : cb ||| (code <<< bits) < 2 ^ (bits + bpc) := by
  have h1 : cb < 2 ^ (bits + bpc) :=
    lt_of_lt_of_le hcb (Nat.pow_le_pow_right (by omega) (by omega))
  have h2 : code <<< bits < 2 ^ (bits + bpc) := by
    rw [Nat.shiftLeft_eq, pow_add, mul_comm (2 ^ bits)]
    exact Nat.mul_lt_mul_of_lt_of_le hcode (le_refl _) (Nat.pos_pow_of_pos _ (by omega))
  exact Nat.bitwise_lt_two_pow h1 h2

/-- Characterization of the inner per-row loop run from a fresh
accumulator: after `n` pixels the bit count is `n·bpc mod 8`, the output
holds `n·bpc / 8` completed bytes, each below 256, and the accumulator
fits in the open bits. -/
lemma rowFold_spec (pixels : List Nat) (bpc size y : Nat)
    (hb : bpc = 1 ∨ bpc = 2 ∨ bpc = 4) (n : Nat) :
    ((List.range n).foldl (packStep pixels bpc size y) (0, 0, [])).2.1 = n * bpc % 8
  ∧ ((List.range n).foldl (packStep pixels bpc size y) (0, 0, [])).2.2.length = n * bpc / 8
  ∧ ((List.range n).foldl (packStep pixels bpc size y) (0, 0, [])).1
      < 2 ^ (n * bpc % 8)
  ∧ ∀ b ∈ ((List.range n).foldl (packStep pixels bpc size y) (0, 0, [])).2.2,
      b < 256 := by
  induction n with
  | zero => simp
  | succ n ih =>
    obtain ⟨h1, h2, h3, h4⟩ := ih
    rw [List.range_succ, List.foldl_append, List.foldl_cons, List.foldl_nil]
    set st := (List.range n).foldl (packStep pixels bpc size y)
      (0, 0, ([] : List Nat)) with hst
    rw [← h1] at h3
    have hcode := get_bit_code_lt (pixels.getD (y * size + n) 0) bpc hb
    have hcb' : st.1 ||| (get_bit_code (pixels.getD (y * size + n) 0) bpc <<< st.2.1)
        < 2 ^ (st.2.1 + bpc) := lor_shift_bound _ _ _ _ h3 hcode
    by_cases hfull : 8 ≤ st.2.1 + bpc
    · have heq : st.2.1 + bpc = 8 := by
        rcases hb with rfl | rfl | rfl <;> omega

      simp only [packStep, if_pos hfull]
      refine ⟨?_, ?_, ?_, ?_⟩
      · rcases hb with rfl | rfl | rfl <;> omega
      · simp only [List.length_append, List.length_cons, List.length_nil, h2]
        rcases hb with rfl | rfl | rfl <;> omega
      · have hmod : (n + 1) * bpc % 8 = 0 := by
          rcases hb with rfl | rfl | rfl <;> omega
        rw [hmod]
        omega
      · intro b hbm
        rcases List.mem_append.mp hbm with hbm | hbm
        · exact h4 b hbm
        · rw [List.mem_singleton.mp hbm]
          calc st.1 ||| _ < 2 ^ (st.2.1 + bpc) := hcb'
          _ = 256 := by rw [heq]; norm_num
    · simp only [packStep, if_neg hfull]
      have heq : (n + 1) * bpc % 8 = st.2.1 + bpc := by
        rcases hb with rfl | rfl | rfl <;> omega
      refine ⟨heq.symm, ?_, ?_, h4⟩
      · rcases hb with rfl | rfl | rfl <;> omega
      · rw [heq]
        exact hcb'

/-- The output buffer threads through the inner loop as a pure prefix:
running the loop on `pre ++ out` appends the same bytes as running it on
`out`. -/
lemma packFold_prefix (pixels : List Nat) (bpc size y : Nat) :
    ∀ (l : List Nat) (cb bits : Nat) (pre out : List Nat),
    l.foldl (packStep pixels bpc size y) (cb, bits, pre ++ out) =
      ((l.foldl (packStep pixels bpc size y) (cb, bits, out)).1,
       (l.foldl (packStep pixels bpc size y) (cb, bits, out)).2.1,
       pre ++ (l.foldl (packStep pixels bpc size y) (cb, bits, out)).2.2) := by
  intro l
  induction l with
  | nil => intro cb bits pre out; rfl
  | cons x xs ih =>
    intro cb bits pre out
    rw [List.foldl_cons, List.foldl_cons]
    by_cases hfull : 8 ≤ bits + bpc
    · simp only [packStep, if_pos hfull]
      rw [List.append_assoc]
      exact ih 0 0 pre (out ++ [cb ||| (get_bit_code (pixels.getD (y * size + x) 0) bpc <<< bits)])
    · simp only [packStep, if_neg hfull]
      exact ih _ _ pre out

/-- One outer-loop step appends exactly the row's own packed bytes. -/
lemma packRowStep_eq (pixels : List Nat) (bpc size : Nat)
    (packed : List Nat) (y : Nat) :
    packRowStep pixels bpc size packed y = packed ++ packRow pixels bpc size y := by
  unfold packRow packRowStep
  have h := packFold_prefix pixels bpc size y (List.range size) 0 0 packed []
  rw [List.append_nil] at h
  rw [h]
  simp only
  split
  · rw [List.append_assoc]
  · rfl

lemma foldl_append_flatten {α β : Type} (g : α → List β) :
    ∀ (l : List α) (init : List β),
    l.foldl (fun acc a => acc ++ g a) init = init ++ (l.map g).flatten := by
  intro l
  induction l with
  | nil => intro init; simp
  | cons a as ih =>
    intro init
    rw [List.foldl_cons, ih, List.map_cons, List.flatten_cons, List.append_assoc]

/-- The packer is the concatenation of the independently packed rows. -/
lemma pack_eq_flatten_rows (pixels : List Nat) (bpc size : Nat) :
    pack_pixels_to_bytes pixels bpc size =
      ((List.range size).map (packRow pixels bpc size)).flatten := by
  unfold pack_pixels_to_bytes
  have hfun : packRowStep pixels bpc size =
      fun acc y => acc ++ packRow pixels bpc size y := by
    funext acc y
    exact packRowStep_eq pixels bpc size acc y
  rw [hfun, foldl_append_flatten, List.nil_append]

/-- Byte count of one packed row: `ceil(size * bpc / 8)`. -/
lemma packRow_length (pixels : List Nat) (bpc size y : Nat)
    (hb : bpc = 1 ∨ bpc = 2 ∨ bpc = 4) :
    (packRow pixels bpc size y).length = (size * bpc + 7) / 8 := by
  obtain ⟨h1, h2, _, _⟩ := rowFold_spec pixels bpc size y hb size
  unfold packRow packRowStep
  simp only
  split
  · next hpos =>
    rw [h1] at hpos
    simp only [List.length_append, List.length_cons, List.length_nil, h2]
    rcases hb with rfl | rfl | rfl <;> omega
  · next hpos =>
    rw [h1] at hpos
    rw [h2]
    rcases hb with rfl | rfl | rfl <;> omega

/-- Every byte of one packed row is below 256. -/
lemma packRow_bytes_lt (pixels : List Nat) (bpc size y : Nat)
    (hb : bpc = 1 ∨ bpc = 2 ∨ bpc = 4) :
    ∀ b ∈ packRow pixels bpc size y, b < 256 := by
  obtain ⟨h1, _, h3, h4⟩ := rowFold_spec pixels bpc size y hb size
  unfold packRow packRowStep
  simp only
  intro b hbm
  revert hbm
  split
  · intro hbm
    rcases List.mem_append.mp hbm with hbm | hbm
    · exact h4 b hbm
    · rw [List.mem_singleton.mp hbm]
      calc _ < 2 ^ (size * bpc % 8) := h1 ▸ h3
      _ ≤ 2 ^ 8 := Nat.pow_le_pow_right (by omega) (by omega)
      _ = 256 := by norm_num
  · intro hbm
    exact h4 b hbm

/-- Total length of the packed raster. -/
lemma pack_length (pixels : List Nat) (bpc size : Nat)
    (hb : bpc = 1 ∨ bpc = 2 ∨ bpc = 4) :
    (pack_pixels_to_bytes pixels bpc size).length = size * ((size * bpc + 7) / 8) := by
  rw [pack_eq_flatten_rows, List.length_flatten, List.map_map]
  have hcomp : (List.length ∘ packRow pixels bpc size) =
      fun _ : Nat => (size * bpc + 7) / 8 := by
    funext y
    exact packRow_length pixels bpc size y hb
  rw [hcomp, List.map_const', List.length_range, List.sum_replicate, smul_eq_mul]

/-- Every byte of the packed raster is below 256. -/
lemma pack_bytes_lt (pixels : List Nat) (bpc size : Nat)
    (hb : bpc = 1 ∨ bpc = 2 ∨ bpc = 4) :
    ∀ b ∈ pack_pixels_to_bytes pixels bpc size, b < 256 := by
  intro b hbm
  rw [pack_eq_flatten_rows] at hbm
  obtain ⟨row, hrow, hbrow⟩ := List.mem_flatten.mp hbm
  obtain ⟨y, _, rfl⟩ := List.mem_map.mp hrow
  exact packRow_bytes_lt pixels bpc size y hb b hbrow

/-! ### Glyph Stream Assembler lemmas -/

/-- The per-size stream is the character-major concatenation of the
packed glyphs, with failed rasterizations contributing nothing. -/
lemma sizeStream_eq_flatten (render : Char → FontDef → Option (List Nat))
    (chars : List Char) (bpc : Nat) (fd : FontDef) :
    sizeStream render chars bpc fd =
      (chars.map (fun c =>
        match render c fd with
        | none => []
        | some pixels => pack_pixels_to_bytes pixels bpc fd.size)).flatten := by
  unfold sizeStream
  have hfun : (fun (all_packed_data : List Nat) (char : Char) =>
      match render char fd with
      | none => all_packed_data
      | some pixels => all_packed_data ++ pack_pixels_to_bytes pixels bpc fd.size) =
      fun all_packed_data char => all_packed_data ++
        (match render char fd with
         | none => []
         | some pixels => pack_pixels_to_bytes pixels bpc fd.size) := by
    funext all c
    cases render c fd
    · simp
    · rfl
  rw [hfun, foldl_append_flatten, List.nil_append]

/-- Byte count of the per-size stream: one full packed glyph for every
successfully rasterized character. -/
lemma sizeStream_length (render : Char → FontDef → Option (List Nat))
    (chars : List Char) (bpc : Nat) (fd : FontDef)
    (hb : bpc = 1 ∨ bpc = 2 ∨ bpc = 4) :
    (sizeStream render chars bpc fd).length =
      (chars.filter (fun c => (render c fd).isSome)).length *
        (fd.size * ((fd.size * bpc + 7) / 8)) := by
  rw [sizeStream_eq_flatten, List.length_flatten, List.map_map]
  induction chars with
  | nil => simp
  | cons c cs ih =>
    rw [List.map_cons, List.sum_cons, List.filter_cons]
    cases hrc : render c fd with
    | none =>
      simp only [Function.comp_apply, hrc, Option.isSome_none, List.length_nil]
      rw [ih]
      simp
    | some pixels =>
      simp only [Function.comp_apply, hrc, Option.isSome_some, if_true]
      rw [ih, pack_length pixels bpc fd.size hb, List.length_cons]
      ring

/-- The Binary Payload is the size-major concatenation of the per-size
streams. -/
lemma binaryPayload_eq_flatten (render : Char → FontDef → Option (List Nat))
    (chars : List Char) (bpc : Nat) :
    binaryPayload render chars bpc =
      (FONT_DEFINITIONS.map (sizeStream render chars bpc)).flatten := by
  unfold binaryPayload
  rw [foldl_append_flatten (sizeStream render chars bpc) FONT_DEFINITIONS [],
    List.nil_append]

/-! ### Codepage Table Builder lemmas -/

/-- Unicode scalar values stay below 0x110000. -/
lemma char_toNat_lt (c : Char) : c.toNat < 0x110000 := by
  rcases c.valid with h | h
  · simp only [Char.toNat]
    omega
  · simp only [Char.toNat]
    omega

/-- Every UTF-8 byte is below 256. -/
lemma utf8Encode_bytes_lt (c : Char) : ∀ b ∈ utf8Encode c, b < 256 := by
  have hc := char_toNat_lt c
  intro b hb
  simp only [utf8Encode] at hb
  split at hb
  · simp only [List.mem_singleton] at hb
    omega
  · split at hb
    · simp only [List.mem_cons, List.mem_singleton, List.not_mem_nil, or_false] at hb
      rcases hb with rfl | rfl <;> omega
    · split at hb
      · simp only [List.mem_cons, List.mem_singleton, List.not_mem_nil, or_false] at hb
        rcases hb with rfl | rfl | rfl <;> omega
      · simp only [List.mem_cons, List.mem_singleton, List.not_mem_nil, or_false] at hb
        rcases hb with rfl | rfl | rfl | rfl <;> omega

/-- The UTF-8 encoding of a scalar value has between 1 and 4 bytes. -/
lemma utf8Encode_length (c : Char) :
    1 ≤ (utf8Encode c).length ∧ (utf8Encode c).length ≤ 4 := by
  simp only [utf8Encode]
  split
  · simp
  · split
    · simp
    · split
      · simp
      · simp

/-- The entry payload always holds exactly three bytes. -/
lemma padded_bytes_length (c : Char) : (padded_bytes c).length = 3 := by
  have h := utf8Encode_length c
  unfold padded_bytes
  rw [List.length_append, List.length_take, List.length_replicate]
  omega

/-- Every payload byte is below 256. -/
lemma padded_bytes_lt (c : Char) : ∀ b ∈ padded_bytes c, b < 256 := by
  intro b hb
  unfold padded_bytes at hb
  rcases List.mem_append.mp hb with hb | hb
  · exact utf8Encode_bytes_lt c b (List.mem_of_mem_take hb)
  · rw [List.eq_of_mem_replicate hb]
    omega

lemma padded_bytes_getD_lt (c : Char) (i : Nat) (hi : i < 3) :
    (padded_bytes c).getD i 0 < 256 := by
  have hlen := padded_bytes_length c
  rw [List.getD_eq_getElem _ _ (by omega)]
  exact padded_bytes_lt c _ (List.getElem_mem _)

/-- Fuel above the value yields the digit of a one-digit number. -/
lemma hexDigitsAux_one (fuel n : Nat) (hf : 0 < fuel) (hn : n < 16) :
    hexDigitsAux fuel n = [hexDigitChar n] := by
  cases fuel with
  | zero => omega
  | succ f =>
    rw [hexDigitsAux, if_pos hn]

lemma hexDigitsAux_two (fuel n : Nat) (hf : n < fuel) (h1 : 16 ≤ n) (h2 : n < 256) :
    hexDigitsAux fuel n = [hexDigitChar (n / 16), hexDigitChar (n % 16)] := by
  cases fuel with
  | zero => omega
  | succ f =>
    rw [hexDigitsAux, if_neg (by omega),
      hexDigitsAux_one f (n / 16) (by omega) (by omega)]
    rfl

lemma hexDigitsAux_three (fuel n : Nat) (hf : n < fuel) (h1 : 256 ≤ n)
    (h2 : n < 4096) :
    hexDigitsAux fuel n =
      [hexDigitChar (n / 256), hexDigitChar (n / 16 % 16), hexDigitChar (n % 16)] := by
  cases fuel with
  | zero => omega
  | succ f =>
    rw [hexDigitsAux, if_neg (by omega),
      hexDigitsAux_two f (n / 16) (by omega) (by omega) (by omega)]
    have e1 : n / 16 / 16 = n / 256 := by omega
    rw [e1]
    rfl

lemma hexDigitsAux_four (fuel n : Nat) (hf : n < fuel) (h1 : 4096 ≤ n)
    (h2 : n < 65536) :
    hexDigitsAux fuel n =
      [hexDigitChar (n / 4096), hexDigitChar (n / 256 % 16),
        hexDigitChar (n / 16 % 16), hexDigitChar (n % 16)] := by
  cases fuel with
  | zero => omega
  | succ f =>
    rw [hexDigitsAux, if_neg (by omega),
      hexDigitsAux_three f (n / 16) (by omega) (by omega) (by omega)]
    have e1 : n / 16 / 256 = n / 4096 := by omega
    have e2 : n / 16 / 16 % 16 = n / 256 % 16 := by omega
    rw [e1, e2]
    rfl

/-- Python's `04x` of a 16-bit value is exactly four hex digits. -/
lemma pyHex4_eq (n : Nat) (hn : n < 65536) :
    pyHex 4 n = String.mk [hexDigitChar (n / 4096 % 16), hexDigitChar (n / 256 % 16),
      hexDigitChar (n / 16 % 16), hexDigitChar (n % 16)] := by
  unfold pyHex
  by_cases c1 : n < 16
  · rw [hexDigitsAux_one _ _ (by omega) c1]
    have e3 : n / 4096 % 16 = 0 := by omega
    have e2 : n / 256 % 16 = 0 := by omega
    have e1 : n / 16 % 16 = 0 := by omega
    have e0 : n % 16 = n := by omega
    rw [e3, e2, e1, e0]
    rfl
  · by_cases c2 : n < 256
    · rw [hexDigitsAux_two _ _ (by omega) (by omega) c2]
      have e3 : n / 4096 % 16 = 0 := by omega
      have e2 : n / 256 % 16 = 0 := by omega
      have e1 : n / 16 % 16 = n / 16 := by omega
      rw [e3, e2, e1]
      rfl
    · by_cases c3 : n < 4096
      · rw [hexDigitsAux_three _ _ (by omega) (by omega) c3]
        have e3 : n / 4096 % 16 = 0 := by omega
        have e2 : n / 256 % 16 = n / 256 := by omega
        rw [e3, e2]
        rfl
      · rw [hexDigitsAux_four _ _ (by omega) (by omega) hn]
        have e3 : n / 4096 % 16 = n / 4096 := by omega
        rw [e3]
        rfl

/-- Python's `02x` of a byte is exactly two hex digits. -/
lemma pyHex2_eq (n : Nat) (hn : n < 256) :
    pyHex 2 n = String.mk [hexDigitChar (n / 16 % 16), hexDigitChar (n % 16)] := by
  unfold pyHex
  by_cases c1 : n < 16
  · rw [hexDigitsAux_one _ _ (by omega) c1]
    have e1 : n / 16 % 16 = 0 := by omega
    have e0 : n % 16 = n := by omega
    rw [e1, e0]
    rfl
  · rw [hexDigitsAux_two _ _ (by omega) (by omega) hn]
    have e1 : n / 16 % 16 = n / 16 := by omega
    rw [e1]
    rfl

/-- For identifiers up to 0xFFFF the emitted entry is exactly the
spec's fixed-width literal structure. -/
lemma formatEntry_eq_entrySpec (id : Nat) (c : Char) (hid : id ≤ 0xFFFF) :
    formatEntry id c = entrySpec id ((padded_bytes c).getD 0 0)
      ((padded_bytes c).getD 1 0) ((padded_bytes c).getD 2 0) := by
  simp only [formatEntry, entrySpec]
  rw [pyHex4_eq id (by omega),
    pyHex2_eq _ (padded_bytes_getD_lt c 0 (by omega)),
    pyHex2_eq _ (padded_bytes_getD_lt c 1 (by omega)),
    pyHex2_eq _ (padded_bytes_getD_lt c 2 (by omega))]

/-- Every fixed-width entry has exactly 28 characters. -/
lemma entrySpec_length (id b0 b1 b2 : Nat) :
    (entrySpec id b0 b1 b2).length = 28 := by
  simp only [entrySpec, String.length_append, String.length_mk, List.length_cons,
    List.length_nil]
  rfl

/-! ### Replicated-corpus computations -/

/-- Scanning a corpus of n ideographic spaces admits every occurrence,
pairing entry k with identifier `idAt k`. -/
lemma charEntries_replicate (n : Nat) :
    charEntries (List.replicate n '　') =
      (List.range n).map (fun k => (idAt k, '　')) := by
  induction n with
  | zero => rfl
  | succ n ih =>
    have hinv := scanInv_buildState (List.replicate n '　')
    unfold charEntries buildState at ih ⊢
    rw [List.replicate_succ', List.foldl_append, List.foldl_cons, List.foldl_nil]
    set st := (List.replicate n '　').foldl processChar initState with hst
    have hlen : st.char_map_data.length = n := by
      show (charEntries (List.replicate n '　')).length = n
      rw [charEntries, buildState, ← hst, ih]
      simp
    have hnext : st.next_id = idAt n := by
      have h3 : st.next_id = idAt st.char_map_data.length := hinv.2.2.1
      rw [h3, hlen]
    show (processChar st '　').char_map_data = _
    unfold processChar
    rw [if_neg (by decide), if_pos rfl]
    simp only
    rw [ih, hnext, List.range_succ, List.map_append]
    rfl

lemma emittedIds_replicate (n : Nat) :
    emittedIds (List.replicate n '　') = (List.range n).map idAt := by
  unfold emittedIds
  rw [charEntries_replicate, List.map_map]
  rfl

/-! ### Claim theorems -/

/-- C1 (amended): for every corpus, every emitted identifier has low byte
at least 0x80; and successive identifiers are strictly increasing
provided the Glyph Order holds at most 16512 Admitted Characters (the
first wrap of the identifier space).  Unbounded corpora break the strict
increase, see the counterexample. -/
theorem allocator_monotonic (corpus : List Char) :
    (∀ id ∈ emittedIds corpus, 0x80 ≤ id % 0x100) ∧
    ((emittedIds corpus).length ≤ 16512 →
      ∀ i, i + 1 < (emittedIds corpus).length →
        (emittedIds corpus).getD i 0 < (emittedIds corpus).getD (i + 1) 0) := by
  constructor
  · intro id hid
    obtain ⟨k, rfl⟩ := emittedIds_mem corpus id hid
    exact idAt_lowByte k
  · intro hlen i hi
    rw [emittedIds_getD corpus i (by omega), emittedIds_getD corpus (i + 1) hi]
    exact idAt_strictMono_prefix i (by omega)

/-- Witness for C1 at the corpus "AB": identifier 0x8080 has low byte
0x80 and is followed by 0x8081. -/
theorem allocator_monotonic_witness :
    0x80 ≤ (emittedIds ['A', 'B']).getD 0 0 % 0x100 ∧
    (emittedIds ['A', 'B']).getD 0 0 < (emittedIds ['A', 'B']).getD 1 0 := by
  have h := allocator_monotonic ['A', 'B']
  exact ⟨h.1 ((emittedIds ['A', 'B']).getD 0 0) (by decide),
    h.2 (by decide) 0 (by decide)⟩

/-- C1 counterexample: a Glyph Order of 16513 ideographic spaces emits
0x100FF at position 16511 and then 0x180 at position 16512 — Python's
`next_id & 0xFF00` discards the third byte, so successive identifiers
are not strictly increasing on corpora this large. -/
theorem allocator_monotonic_cex :
    (emittedIds (List.replicate 16513 '　')).length = 16513 ∧
    (emittedIds (List.replicate 16513 '　')).getD 16511 0 = 0x100FF ∧
    (emittedIds (List.replicate 16513 '　')).getD 16512 0 = 0x180 ∧
    ¬ ((emittedIds (List.replicate 16513 '　')).getD 16511 0 <
        (emittedIds (List.replicate 16513 '　')).getD 16512 0) := by
  have hlen : (emittedIds (List.replicate 16513 '　')).length = 16513 := by
    rw [emittedIds_replicate]
    simp
  refine ⟨hlen, ?_, ?_, ?_⟩
  · rw [emittedIds_getD _ 16511 (by rw [hlen]; omega), idAt_16511]
  · rw [emittedIds_getD _ 16512 (by rw [hlen]; omega), idAt_16512]
  · rw [emittedIds_getD _ 16511 (by rw [hlen]; omega),
      emittedIds_getD _ 16512 (by rw [hlen]; omega), idAt_16511, idAt_16512]
    omega

/-- C2: whenever an emitted identifier has low byte 0xFF, the next
emitted identifier is (high byte + 1) · 0x100 + 0x80 — its high byte is
incremented and its low byte reset to 0x80; in particular 0x80FF is
followed by 0x8180 (not 0x8100) and 0x82FF by 0x8380. -/
theorem allocator_carry_prop (corpus : List Char) (i : Nat)
    (h : i + 1 < (emittedIds corpus).length) :
    ((emittedIds corpus).getD i 0 % 0x100 = 0xFF →
      (emittedIds corpus).getD (i + 1) 0 =
        ((emittedIds corpus).getD i 0 / 0x100 % 0x100 + 1) * 0x100 + 0x80 ∧
      (emittedIds corpus).getD (i + 1) 0 % 0x100 = 0x80) ∧
    ((emittedIds corpus).getD i 0 = 0x80FF →
      (emittedIds corpus).getD (i + 1) 0 = 0x8180 ∧
      (emittedIds corpus).getD (i + 1) 0 ≠ 0x8100) ∧
    ((emittedIds corpus).getD i 0 = 0x82FF →
      (emittedIds corpus).getD (i + 1) 0 = 0x8380) := by
  rw [emittedIds_getD corpus i (by omega), emittedIds_getD corpus (i + 1) h]
  have hs : idAt (i + 1) = advanceId (idAt i) := rfl
  refine ⟨?_, ?_, ?_⟩
  · intro hff
    rw [hs, advanceId_carry _ hff]
    exact ⟨rfl, by omega⟩
  · intro hv
    rw [hs, hv]
    exact ⟨by decide, by decide⟩
  · intro hv
    rw [hs, hv]
    decide

/-- Witness for C2 at a corpus of 129 ideographic spaces: entry 127
carries identifier 0x80FF and entry 128 identifier 0x8180. -/
theorem allocator_carry_witness :
    (emittedIds (List.replicate 129 '　')).getD 127 0 = 0x80FF ∧
    (emittedIds (List.replicate 129 '　')).getD 128 0 = 0x8180 := by
  have hlen : (emittedIds (List.replicate 129 '　')).length = 129 := by
    rw [emittedIds_replicate]
    simp
  have h127 : (emittedIds (List.replicate 129 '　')).getD 127 0 = 0x80FF := by
    rw [emittedIds_getD _ 127 (by rw [hlen]; omega), idAt_closed 127 (by omega)]
    norm_num
  have h := allocator_carry_prop (List.replicate 129 '　') 127 (by rw [hlen]; omega)
  exact ⟨h127, (h.2.1 h127).1⟩

/-- C3: the ideographic space is exempt from deduplication — the Glyph
Order holds one slot per corpus occurrence, while any other character
appears at most once (exactly once when it occurs outside newlines); the
corpus "AA" admits a single 'A', and "A　B　" yields two entries for the
ideographic space with the distinct identifiers 0x8081 and 0x8083. -/
theorem ideographic_space_exempt :
    (∀ corpus : List Char,
      (glyphOrder corpus).count '　' = corpus.count '　' ∧
      (∀ c : Char, c ≠ '　' → (glyphOrder corpus).count c ≤ 1) ∧
      (∀ c : Char, c ≠ '　' → c ≠ '\n' → c ≠ '\r' → c ∈ corpus →
        (glyphOrder corpus).count c = 1) ∧
      (charEntries corpus).map Prod.snd = glyphOrder corpus) ∧
    glyphOrder "AA".toList = ['A'] ∧
    charEntries "A　B　".toList =
      [(0x8080, 'A'), (0x8081, '　'), (0x8082, 'B'), (0x8083, '　')] := by
  refine ⟨?_, by decide, by decide⟩
  intro corpus
  have hinv := scanInv_buildState corpus
  refine ⟨?_, ?_, ?_, hinv.1⟩
  · have h := count_exempt_fold corpus initState
    unfold glyphOrder buildState
    rw [h]
    simp [initState]
  · intro c hc
    have h := hinv.2.2.2.2.2 c hc
    unfold glyphOrder
    rw [h]
    split <;> omega
  · intro c hc hn1 hn2 hmem
    have hseen : c ∈ (buildState corpus).unique_chars_seen :=
      mem_seen_of_mem corpus initState c hmem hn1 hn2 hc
    have h := hinv.2.2.2.2.2 c hc
    unfold glyphOrder
    rw [h, if_pos hseen]

/-- Witness for C3: 'A' is admitted exactly once from "AA", and the
ideographic space twice from "A　B　". -/
theorem ideographic_space_exempt_witness :
    (glyphOrder "AA".toList).count 'A' = 1 ∧
    (glyphOrder "A　B　".toList).count '　' = 2 := by
  have h := ideographic_space_exempt
  constructor
  · exact (h.1 "AA".toList).2.2.1 'A' (by decide) (by decide) (by decide) (by decide)
  · rw [(h.1 "A　B　".toList).1]
    decide

/-- C9: newline and carriage-return characters never enter the Glyph
Order and never receive a Codepage Entry (hence no identifier, and no
glyph is rasterized or packed for them, since Step 3 iterates the Glyph
Order alone). -/
theorem newline_excluded (corpus : List Char) :
    '\n' ∉ glyphOrder corpus ∧ '\r' ∉ glyphOrder corpus ∧
    ∀ p ∈ charEntries corpus, p.2 ≠ '\n' ∧ p.2 ≠ '\r' := by
  have hinv := scanInv_buildState corpus
  refine ⟨hinv.2.2.2.1.1, hinv.2.2.2.1.2, ?_⟩
  intro p hp
  have hmem : p.2 ∈ glyphOrder corpus := by
    show p.2 ∈ (buildState corpus).chars_to_process
    rw [← hinv.1]
    exact List.mem_map_of_mem Prod.snd hp
  constructor
  · intro he
    exact hinv.2.2.2.1.1 (he ▸ hmem)
  · intro he
    exact hinv.2.2.2.1.2 (he ▸ hmem)

/-- Witness for C9 at the corpus "\nA\r": the newline does not reach the
Glyph Order, and the single entry is for 'A'. -/
theorem newline_excluded_witness :
    '\n' ∉ glyphOrder "\nA\r".toList ∧
    ((0x8080 : Nat), 'A').2 ≠ '\n' := by
  have h := newline_excluded "\nA\r".toList
  exact ⟨h.1, (h.2.2 (0x8080, 'A') (by decide)).1⟩

/-- C5: the Pixel Quantizer is monotonically non-increasing in the
sample at every supported bit depth. -/
theorem quantizer_monotone (s1 s2 bits_per_char : Nat) (h12 : s1 < s2)
    (h2 : s2 ≤ 255)
    (hb : bits_per_char = 1 ∨ bits_per_char = 2 ∨ bits_per_char = 4) :
    get_bit_code s2 bits_per_char ≤ get_bit_code s1 bits_per_char := by
  rcases hb with rfl | rfl | rfl
  · unfold get_bit_code
    norm_num
    split <;> split <;> omega
  · unfold get_bit_code
    norm_num [Nat.shiftRight_eq_div_pow]
    omega
  · unfold get_bit_code
    norm_num [Nat.shiftRight_eq_div_pow]
    omega

/-- Witness for C5 at the extreme samples in 4-bit depth. -/
theorem quantizer_monotone_witness :
    get_bit_code 255 4 ≤ get_bit_code 0 4 :=
  quantizer_monotone 0 255 4 (by omega) (by omega) (Or.inr (Or.inr rfl))

/-- C4: the packer works row by row — the output is the concatenation of
the independently packed rows, each row occupies exactly
`ceil(size * bits_per_char / 8)` bytes, and the whole raster packs to
`size` times that, for any pixel values. -/
theorem pack_row_independence (pixels : List Nat) (bits_per_char size : Nat)
    (hb : bits_per_char = 1 ∨ bits_per_char = 2 ∨ bits_per_char = 4) :
    pack_pixels_to_bytes pixels bits_per_char size =
      ((List.range size).map (packRow pixels bits_per_char size)).flatten ∧
    (∀ y, (packRow pixels bits_per_char size y).length =
      (size * bits_per_char + 7) / 8) ∧
    (pack_pixels_to_bytes pixels bits_per_char size).length =
      size * ((size * bits_per_char + 7) / 8) :=
  ⟨pack_eq_flatten_rows pixels bits_per_char size,
   fun y => packRow_length pixels bits_per_char size y hb,
   pack_length pixels bits_per_char size hb⟩

/-- Witness for C4 on a 2 x 2 raster at 4 bits per pixel: two rows of one
byte each. -/
theorem pack_row_independence_witness :
    (pack_pixels_to_bytes [0, 255, 255, 0] 4 2).length = 2 := by
  have h := pack_row_independence [0, 255, 255, 0] 4 2 (Or.inr (Or.inr rfl))
  rw [h.2.2]

/-- C10: the quantizer output fits in `bits_per_char` bits for every
sample, so every byte the packer appends fits in [0, 255] — the
`bytearray.append` can never be handed a value above 255. -/
theorem quantizer_packer_safe (bits_per_char : Nat)
    (hb : bits_per_char = 1 ∨ bits_per_char = 2 ∨ bits_per_char = 4) :
    (∀ pixel_value, pixel_value ≤ 255 →
      get_bit_code pixel_value bits_per_char ≤ 2 ^ bits_per_char - 1) ∧
    ∀ (pixels : List Nat) (size b : Nat),
      b ∈ pack_pixels_to_bytes pixels bits_per_char size → b ≤ 255 := by
  constructor
  · intro v _
    have h := get_bit_code_lt v bits_per_char hb
    rcases hb with rfl | rfl | rfl <;> omega
  · intro pixels size b hbm
    have h := pack_bytes_lt pixels bits_per_char size hb b hbm
    omega

/-- Witness for C10: the darkest sample maps to code 15 at 4-bit depth,
and the byte 0x0F packed from it stays within a byte. -/
theorem quantizer_packer_safe_witness :
    get_bit_code 0 4 ≤ 2 ^ 4 - 1 ∧ (15 : Nat) ≤ 255 :=
  ⟨(quantizer_packer_safe 4 (Or.inr (Or.inr rfl))).1 0 (by omega),
   (quantizer_packer_safe 4 (Or.inr (Or.inr rfl))).2 [0] 1 15 (by decide)⟩

/-- C6: the Binary Payload is the size-major (configured order) then
character-major (Glyph Order) concatenation of the Packed Glyph
Bitstreams, and its byte length is the sum over the Size Descriptors of
(successfully rasterized glyphs at that size) x (bytes per packed glyph
at that size and depth). -/
theorem binary_payload_size (render : Char → FontDef → Option (List Nat))
    (chars : List Char) (bits_per_char : Nat)
    (hb : bits_per_char = 1 ∨ bits_per_char = 2 ∨ bits_per_char = 4) :
    binaryPayload render chars bits_per_char =
      (FONT_DEFINITIONS.map (sizeStream render chars bits_per_char)).flatten ∧
    (∀ font_def, sizeStream render chars bits_per_char font_def =
      (chars.map (fun c =>
        match render c font_def with
        | none => []
        | some pixels =>
          pack_pixels_to_bytes pixels bits_per_char font_def.size)).flatten) ∧
    (binaryPayload render chars bits_per_char).length =
      (FONT_DEFINITIONS.map (fun font_def =>
        (chars.filter (fun c => (render c font_def).isSome)).length *
          (font_def.size * ((font_def.size * bits_per_char + 7) / 8)))).sum := by
  refine ⟨binaryPayload_eq_flatten render chars bits_per_char,
    fun fd => sizeStream_eq_flatten render chars bits_per_char fd, ?_⟩
  rw [binaryPayload_eq_flatten, List.length_flatten, List.map_map]
  apply congrArg
  apply List.map_congr_left
  intro fd _
  simp only [Function.comp_apply]
  exact sizeStream_length render chars bits_per_char fd hb

/-- Witness for C6: with a rasterizer that renders only 'A', corpus
"AB" at 1 bit per pixel yields 24 + 30 + 60 = 114 payload bytes. -/
theorem binary_payload_size_witness :
    (binaryPayload
      (fun c fd => if c = 'A' then some (List.replicate (fd.size * fd.size) 0) else none)
      ['A', 'B'] 1).length = 114 := by
  have h := binary_payload_size
    (fun c fd => if c = 'A' then some (List.replicate (fd.size * fd.size) 0) else none)
    ['A', 'B'] 1 (Or.inl rfl)
  rw [h.2.2]
  decide

/-- Entry 16384 of a 16385-ideographic-space corpus is formatted from
identifier 0x10080. -/
lemma charMapData_replicate_getD :
    (charMapData (List.replicate 16385 '　')).getD 16384 "" =
      formatEntry 0x10080 '　' := by
  unfold charMapData
  rw [charEntries_replicate 16385, List.map_map,
    range_map_getD 16385 16384 _ "" (by omega)]
  simp only [Function.comp_apply]
  rw [idAt_16384]

/-- C7 (amended): the Codepage Entry payload is the UTF-8 encoding
truncated to its first 3 bytes when longer and zero-padded on the right
when shorter, and the entry is the literal structure
`\x7b identifier, \x7b byte0, byte1, byte2 \x7d\x7d` with the identifier
as 4 hex digits and each byte as 2 hex digits, provided the identifier
fits in 16 bits; identifiers past 0xFFFF (reachable only after the
identifier space is exhausted) print with five hex digits, see the
counterexample. -/
theorem codepage_entry_format (c : Char) (id : Nat) :
    (padded_bytes c).length = 3 ∧
    (3 ≤ (utf8Encode c).length → padded_bytes c = (utf8Encode c).take 3) ∧
    ((utf8Encode c).length ≤ 3 →
      padded_bytes c = utf8Encode c ++
        List.replicate (3 - (utf8Encode c).length) 0) ∧
    (id ≤ 0xFFFF → formatEntry id c = entrySpec id ((padded_bytes c).getD 0 0)
      ((padded_bytes c).getD 1 0) ((padded_bytes c).getD 2 0)) := by
  refine ⟨padded_bytes_length c, ?_, ?_, fun hid => formatEntry_eq_entrySpec id c hid⟩
  · intro h3
    unfold padded_bytes
    have h0 : 3 - (utf8Encode c).length = 0 := by omega
    rw [h0]
    simp
  · intro h3
    unfold padded_bytes
    rw [List.take_of_length_le h3]

/-- Witness for C7 at the ideographic space with identifier 0x8081: the
three-byte UTF-8 encoding 0xE3 0x80 0x80 is kept whole and the entry is
the fixed-width literal structure. -/
theorem codepage_entry_format_witness :
    padded_bytes '　' = [0xE3, 0x80, 0x80] ∧
    formatEntry 0x8081 '　' =
      entrySpec 0x8081 ((padded_bytes '　').getD 0 0)
        ((padded_bytes '　').getD 1 0) ((padded_bytes '　').getD 2 0) := by
  have h := codepage_entry_format '　' 0x8081
  refine ⟨?_, h.2.2.2 (by omega)⟩
  rw [h.2.1 (by decide)]
  decide

/-- C7 counterexample: the corpus of 16385 ideographic spaces emits an
entry whose identifier prints as five hex digits, so the entry (29
characters) cannot be the fixed-width literal structure (always 28
characters). -/
theorem codepage_entry_format_cex :
    (charMapData (List.replicate 16385 '　')).getD 16384 "" =
      "\x7b0x10080, \x7b0xe3, 0x80, 0x80\x7d\x7d" ∧
    ¬ ∃ id b0 b1 b2 : Nat,
      (charMapData (List.replicate 16385 '　')).getD 16384 "" =
        entrySpec id b0 b1 b2 := by
  have hval : (charMapData (List.replicate 16385 '　')).getD 16384 "" =
      "\x7b0x10080, \x7b0xe3, 0x80, 0x80\x7d\x7d" := by
    rw [charMapData_replicate_getD]
    decide
  refine ⟨hval, ?_⟩
  rintro ⟨id, b0, b1, b2, heq⟩
  rw [hval] at heq
  have h1 := congrArg String.length heq
  rw [entrySpec_length] at h1
  exact absurd h1 (by decide)

/-- C8 counterexample: with the base text readable and the translation
file missing, the run does not abort — it produces the codepage table
and Glyph Order from the base text alone (and then writes the Binary
Payload). -/
theorem translation_missing_cex :
    runGeneration (some "A") none =
      some (["\x7b0x8080, \x7b0x41, 0x00, 0x00\x7d\x7d"], ['A']) ∧
    runGeneration (some "A") none ≠ none := by
  constructor
  · decide
  · decide

/-- C8 (amended): a missing or unreadable corpus (base text) file is
fatal — the run aborts with no outputs; a missing or unreadable
translation file is only a warning — the run proceeds with the original
text alone and produces its outputs. -/
theorem translation_missing_nonfatal :
    (∀ t : Option String, runGeneration none t = none) ∧
    (∀ s : String, runGeneration (some s) none =
      some (charMapData s.toList, glyphOrder s.toList)) :=
  ⟨fun _ => rfl, fun _ => rfl⟩

/-- Witness for C8: a concrete aborting run and a concrete proceeding
run. -/
theorem translation_missing_nonfatal_witness :
    runGeneration none (some "x") = none ∧
    runGeneration (some "A") none =
      some (charMapData "A".toList, glyphOrder "A".toList) :=
  ⟨translation_missing_nonfatal.1 (some "x"),
   translation_missing_nonfatal.2 "A"⟩
